import Mathlib

/-
Verification of the toolpath weaving engine (heart-valve repository).

The embedding models the core of `model.py` (the authoritative, latest
variant): the curve sampler `get_targets_y_spaced`, the anchor selector
`get_anchor_idxs`, the two weave-planner passes `draw_bundles` and
`draw_bundles_right` (including their threading of the mutable
`z_heights` ledger), the motion sequencer `dance` (including its five
internal `needs_cleaning` checks), and the step scheduler
`draw_and_listen` (including its `current_step -= 1` recovery step and
Python negative indexing into `dance_steps`).

Numeric conventions: Python ints are ℤ (Python `%` on a positive
modulus is `Int.emod`, Python 2 integer `/` is `Int.fdiv`); float
arithmetic is modelled exactly over ℚ; `numpy.round` is round-half-to-
even; `astype('int')` truncates toward zero.  The square root used by
the sampler is abstracted as a function parameter `sqrtFn : ℚ → ℚ`:
every property proven here is independent of its values.
-/

/-- Python/numpy indexing: a negative index `i` addresses element
`len + i` from the end. -/
def pyIdx (n : ℕ) (i : ℤ) : ℤ := if i < 0 then i + n else i

/-- `astype('int')`: truncation toward zero. -/
def ratTrunc (q : ℚ) : ℤ := if q < 0 then ⌈q⌉ else ⌊q⌋

/-- `numpy.round`: round half to even (banker's rounding). -/
def roundHalfEven (q : ℚ) : ℤ :=
  if q - ⌊q⌋ < 1/2 then ⌊q⌋
  else if 1/2 < q - ⌊q⌋ then ⌊q⌋ + 1
  else if ⌊q⌋ % 2 = 0 then ⌊q⌋ else ⌊q⌋ + 1

/-- Number of samples produced by `np.arange(0, -r, -s)`:
`max 0 ⌈r / s⌉` (for `s = 0` numpy raises; that case is never used). -/
def arangeCount (r s : ℚ) : ℕ := if s = 0 then 0 else (⌈r / s⌉).toNat

/-- Geometric configuration of the sampler (`Model.__init__`). -/
structure SamplerCfg where
  diameter : ℚ
  lineSpacing : ℚ
  startX : ℚ
  startY : ℚ
deriving DecidableEq

/-- Embedding of `Model.get_targets_y_spaced` (model.py lines 64-72):
`y = arange(0, -r, -s)`, `x = sqrt(r² - y²) + a`, `y += b`,
`targets_x = hstack((-x + 2a, x[::-1]))`, `targets_y = hstack((y, y[::-1]))`,
returned as the list of (x, y) pairs. -/
def get_targets_y_spaced (sqrtFn : ℚ → ℚ) (c : SamplerCfg) : List (ℚ × ℚ) :=
  let a := c.startX
  let b := c.startY
  let r := c.diameter / 2
  let y := (List.range (arangeCount r c.lineSpacing)).map
    (fun k : ℕ => -((k : ℚ) * c.lineSpacing))
  let x := y.map (fun yi => sqrtFn (r ^ 2 - yi ^ 2) + a)
  let yb := y.map (fun yi => yi + b)
  let targetsX := x.map (fun xi => -xi + 2 * a) ++ x.reverse
  let targetsY := yb ++ yb.reverse
  targetsX.zip targetsY

/-- Length of the sampled curve (independent of the square root). -/
def curveLen (c : SamplerCfg) : ℕ :=
  2 * arangeCount (c.diameter / 2) c.lineSpacing

/-- Embedding of `Model.get_anchor_idxs` (model.py lines 74-80):
`linspace(0, N, k+1)` dropped last and rounded, shifted by half the
inter-anchor spacing and by `shift * 0.5 * anchor_width`, cast to int.
The code reads element 1 of the rounded array, so it requires `k ≥ 2`;
the embedding totalizes that read with a default. -/
def get_anchor_idxs (N : ℕ) (k : ℕ) (w : ℚ) (shift : ℚ) : List ℤ :=
  let base : List ℚ :=
    (List.range k).map (fun t : ℕ => (roundHalfEven ((t : ℚ) * N / k) : ℚ))
  let half := (base.getD 1 0 - base.getD 0 0) / 2
  base.map (fun q => ratTrunc (q + half + shift * (1/2) * w))

/-- One emission of the weave planner: `pre_dance(fro, to)` appended the
pair of 3D points; the embedding additionally records the curve indices
the two endpoints were read from and the tic at emission time (ghost
observations used to state the claims). -/
structure Emit (α : Type) where
  froIdx : ℤ
  froPt : α
  froZ : ℚ
  toIdx : ℤ
  toPt : α
  toZ : ℚ
  dir : ℤ
deriving DecidableEq

/-- Threaded state of a planner pass: the parity tic, the `z_heights`
ledger and the accumulated `dance_steps`. -/
structure PlanState (α : Type) where
  tic : ℤ
  zh : List ℚ
  steps : List (Emit α)
deriving DecidableEq

/-- Read `z_heights[i]` with numpy (negative-wrapping) indexing. -/
def zhGet (zh : List ℚ) (i : ℤ) : ℚ := zh.getD (pyIdx zh.length i).toNat 0

/-- `z_heights[i] += v` with numpy (negative-wrapping) indexing. -/
def zhAdd (zh : List ℚ) (i : ℤ) (v : ℚ) : List ℚ :=
  zh.set (pyIdx zh.length i).toNat (zhGet zh i + v)

/-- Inner-loop body of `Model.draw_bundles` (model.py lines 90-108):
offset, forward target/anchor indices, the `target_idx < N/2` skip,
the two height reads (both BEFORE either increment, as in the source),
the two increments, the tic-directed emission, and the tic flip. -/
def bundleStep {α : Type} (pts : ℤ → α) (N : ℕ) (m w : ℤ) (A : List ℤ)
    (zinc : ℚ) (st : PlanState α) (i j : ℤ) : PlanState α :=
  let offset := Int.emod j w - Int.fdiv w 2
  let targetIdx := j * m - i + (N : ℤ) / 2
  let anchorIdx := A.getD i.toNat 0 - offset
  if targetIdx < (N : ℤ) / 2 then st
  else
    let target := pts targetIdx
    let anchor := pts anchorIdx
    let targetZ := zhGet st.zh targetIdx
    let anchorZ := zhGet st.zh anchorIdx
    let zh1 := zhAdd st.zh targetIdx zinc
    let zh2 := zhAdd zh1 anchorIdx zinc
    let e : Emit α :=
      if st.tic = 1 then ⟨anchorIdx, anchor, anchorZ, targetIdx, target, targetZ, st.tic⟩
      else ⟨targetIdx, target, targetZ, anchorIdx, anchor, anchorZ, st.tic⟩
    ⟨st.tic * -1, zh2, st.steps ++ [e]⟩

/-- Embedding of `Model.draw_bundles` (model.py lines 82-109): the
forward weave pass.  `pts` abstracts the curve lookup `targets[idx]`;
`numAnchors` is `self.num_anchors`, `A` the anchor index array, `zinc`
`self.layer_thickness`, `zh0` the incoming `z_heights`.  The trailing
`g.set_valve(0, 0)` per anchor goes to the external sink and is not
part of the planned steps. -/
def draw_bundles {α : Type} (pts : ℤ → α) (N : ℕ) (numAnchors : ℕ) (w : ℤ)
    (A : List ℤ) (zinc : ℚ) (zh0 : List ℚ) : PlanState α :=
  let m := numAnchors / 2
  let jmax := (N - N / 2) / m
  (List.range m).foldl
    (fun st (i : ℕ) =>
      (List.range jmax).foldl
        (fun st (j : ℕ) => bundleStep pts N (m : ℤ) w A zinc st (i : ℤ) (j : ℤ)) st)
    ⟨1, zh0, []⟩

/-- Inner-loop body of `Model.draw_bundles_right` (model.py lines
119-137): return-pass indices, the `% len(targets)` on the anchor
index, and the `target_idx < 0 or anchor_idx < 0` skip. -/
def bundleStepRight {α : Type} (pts : ℤ → α) (N : ℕ) (m w : ℤ) (A : List ℤ)
    (zinc : ℚ) (st : PlanState α) (i j : ℤ) : PlanState α :=
  let offset := Int.emod j w - Int.fdiv w 2
  let targetIdx := j * m - i
  let anchorIdx := Int.emod (A.getD (i + m).toNat 0 - offset) (N : ℤ)
  if targetIdx < 0 ∨ anchorIdx < 0 then st
  else
    let target := pts targetIdx
    let anchor := pts anchorIdx
    let targetZ := zhGet st.zh targetIdx
    let anchorZ := zhGet st.zh anchorIdx
    let zh1 := zhAdd st.zh targetIdx zinc
    let zh2 := zhAdd zh1 anchorIdx zinc
    let e : Emit α :=
      if st.tic = 1 then ⟨anchorIdx, anchor, anchorZ, targetIdx, target, targetZ, st.tic⟩
      else ⟨targetIdx, target, targetZ, anchorIdx, anchor, anchorZ, st.tic⟩
    ⟨st.tic * -1, zh2, st.steps ++ [e]⟩

/-- Embedding of `Model.draw_bundles_right` (model.py lines 111-138):
the mirrored return pass, binding right-half anchors into the left
half.  `left_targets = targets[:N/2]` has `N/2` elements, so the inner
range is `(N/2) / m`. -/
def draw_bundles_right {α : Type} (pts : ℤ → α) (N : ℕ) (numAnchors : ℕ)
    (w : ℤ) (A : List ℤ) (zinc : ℚ) (zh0 : List ℚ) : PlanState α :=
  let m := numAnchors / 2
  let jmax := (N / 2) / m
  (List.range m).foldl
    (fun st (i : ℕ) =>
      (List.range jmax).foldl
        (fun st (j : ℕ) => bundleStepRight pts N (m : ℤ) w A zinc st (i : ℤ) (j : ℤ)) st)
    ⟨1, zh0, []⟩

/-- A Binding in the spec's sense: an ordered (source, destination)
pair of curve indices tagged with the direction tic. -/
structure Binding where
  src : ℤ
  dst : ℤ
  dir : ℤ
deriving DecidableEq

/-- Project a planner emission to its index-level Binding. -/
def projB {α : Type} (e : Emit α) : Binding := ⟨e.froIdx, e.toIdx, e.dir⟩

/-- Spec-side description of one forward-pass step, following the
claim's words: `offset = (j mod w) - w/2`,
`target_index = j·m - i + N/2`, `anchor_index = anchor_idxs[i] - offset`;
skip when `target_index < N/2`, else emit `(anchor_index, target_index)`
when the tic is +1 and the swapped pair otherwise, flipping the tic
after every emission. -/
def specForwardStep (N : ℕ) (m w : ℤ) (A : List ℤ)
    (st : ℤ × List Binding) (i j : ℤ) : ℤ × List Binding :=
  let offset := Int.emod j w - Int.fdiv w 2
  let targetIndex := j * m - i + (N : ℤ) / 2
  let anchorIndex := A.getD i.toNat 0 - offset
  if targetIndex < (N : ℤ) / 2 then st
  else if st.1 = 1 then (st.1 * -1, st.2 ++ [⟨anchorIndex, targetIndex, st.1⟩])
  else (st.1 * -1, st.2 ++ [⟨targetIndex, anchorIndex, st.1⟩])

/-- Spec-side forward weave pass: ranks `i ∈ [0, m)`, local offsets
`j ∈ [0, (N/2)/m)`. -/
def specForwardPass (N : ℕ) (m : ℕ) (w : ℤ) (A : List ℤ) : List Binding :=
  ((List.range m).foldl
    (fun st (i : ℕ) =>
      (List.range ((N / 2) / m)).foldl
        (fun st (j : ℕ) => specForwardStep N (m : ℤ) w A st (i : ℤ) (j : ℤ)) st)
    (1, [])).2

/-- Spec-side description of one return-pass step, following the
claim's words: `target_index = j·m - i` (no `+N/2`),
`anchor_index = (anchor_idxs[i+m] - offset) mod N`; skip when
`target_index < 0` or `anchor_index < 0`. -/
def specReturnStep (N : ℕ) (m w : ℤ) (A : List ℤ)
    (st : ℤ × List Binding) (i j : ℤ) : ℤ × List Binding :=
  let offset := Int.emod j w - Int.fdiv w 2
  let targetIndex := j * m - i
  let anchorIndex := Int.emod (A.getD (i + m).toNat 0 - offset) (N : ℤ)
  if targetIndex < 0 ∨ anchorIndex < 0 then st
  else if st.1 = 1 then (st.1 * -1, st.2 ++ [⟨anchorIndex, targetIndex, st.1⟩])
  else (st.1 * -1, st.2 ++ [⟨targetIndex, anchorIndex, st.1⟩])

/-- Spec-side return weave pass. -/
def specReturnPass (N : ℕ) (m : ℕ) (w : ℤ) (A : List ℤ) : List Binding :=
  ((List.range m).foldl
    (fun st (i : ℕ) =>
      (List.range ((N / 2) / m)).foldl
        (fun st (j : ℕ) => specReturnStep N (m : ℤ) w A st (i : ℤ) (j : ℤ)) st)
    (1, [])).2

/-- Variant of `specReturnStep` whose skip condition tests only
`target_index < 0`: used to state that, thanks to the `mod N`, the
`anchor_index < 0` disjunct of the return pass's skip never fires. -/
def specReturnStepTgt (N : ℕ) (m w : ℤ) (A : List ℤ)
    (st : ℤ × List Binding) (i j : ℤ) : ℤ × List Binding :=
  let offset := Int.emod j w - Int.fdiv w 2
  let targetIndex := j * m - i
  let anchorIndex := Int.emod (A.getD (i + m).toNat 0 - offset) (N : ℤ)
  if targetIndex < 0 then st
  else if st.1 = 1 then (st.1 * -1, st.2 ++ [⟨anchorIndex, targetIndex, st.1⟩])
  else (st.1 * -1, st.2 ++ [⟨targetIndex, anchorIndex, st.1⟩])

/-- Return pass with the target-only skip condition. -/
def specReturnPassTgt (N : ℕ) (m : ℕ) (w : ℤ) (A : List ℤ) : List Binding :=
  ((List.range m).foldl
    (fun st (i : ℕ) =>
      (List.range ((N / 2) / m)).foldl
        (fun st (j : ℕ) => specReturnStepTgt N (m : ℤ) w A st (i : ℤ) (j : ℤ)) st)
    (1, [])).2

/-- The anchor endpoint of a binding: the `src` endpoint when the tic
was +1 (the code then called `pre_dance(anchor, target)`), else `dst`. -/
def anchorOf (b : Binding) : ℤ := if b.dir = 1 then b.src else b.dst

/-- The Height Ledger's `reserve`: read the current height at an index,
then increment the stored value by one layer step, returning the
pre-increment value.  This is the read-then-increment consumption
pattern inlined at valve_model.py lines 89-92 (spec §4.4). -/
def reserve (zh : ℤ → ℚ) (step : ℚ) (i : ℤ) : ℚ × (ℤ → ℚ) :=
  (zh i, fun j => if j = i then zh j + step else zh j)

/-- `n` sequential reservations at the same index, returning the list
of reserved heights and the final ledger. -/
def reserveN (zh : ℤ → ℚ) (step : ℚ) (i : ℤ) : ℕ → List ℚ × (ℤ → ℚ)
  | 0 => ([], zh)
  | n + 1 =>
    let r := reserve zh step i
    let rest := reserveN r.2 step i n
    (r.1 :: rest.1, rest.2)

/-- Configuration consumed by the motion sequencer `dance`. -/
structure DanceCfg where
  layerThickness : ℚ
  heaven : ℚ
  stampTime : ℚ
  runway : ℚ
  groundSpeed : ℚ
  airSpeed : ℚ
deriving DecidableEq

/-- One motion primitive emitted to the external sink `g`.  The
z-axis keyword (`z_dim`) is fixed at construction, so z-moves are a
single constructor. -/
inductive Prim where
  | absMoveXYZ (x y z : ℚ)
  | moveZ (dz : ℚ)
  | moveX (dx : ℚ)
  | feed (rate : ℚ)
  | setValve (ch v : ℕ)
  | dwell (t : ℚ)
deriving DecidableEq

/-- Flag observation at checkpoint `c` of a dance call: the interrupt
flag is raised at most once during a call (only `draw_and_listen`
clears it, on the same thread), so a raise at point `r` is observed at
every checkpoint `c ≥ r`; `none` means the flag stays clear. -/
def chk (raiseAt : Option ℕ) (c : ℕ) : Bool :=
  match raiseAt with
  | none => false
  | some r => decide (r ≤ c)

/-- Number of primitives `dance` emits before the first checkpoint that
observes the flag (17 = the complete sequence). -/
def cutoff (raiseAt : Option ℕ) : ℕ :=
  match raiseAt with
  | none => 17
  | some r =>
    if r = 0 then 3 else if r = 1 then 7 else if r = 2 then 10
    else if r = 3 then 12 else if r = 4 then 14 else 17

/-- Embedding of `Model.dance` (model.py lines 145-202): runway
direction from the endpoint x-order, the layer-tier runway offsets
(`floor(z / layer_thickness)`), the contact-height normalization to
`0.6 * layer_thickness`, and the primitive sequence with the five
`needs_cleaning` early returns. -/
def dance (cfg : DanceCfg) (fro tgt : ℚ × ℚ × ℚ) (raiseAt : Option ℕ) :
    List Prim :=
  let rway := if fro.1 < tgt.1 then cfg.runway else -cfg.runway
  let froLevel : ℤ := ⌊fro.2.2 / cfg.layerThickness⌋
  let toLevel : ℤ := ⌊tgt.2.2 / cfg.layerThickness⌋
  let froX := fro.1 - (froLevel : ℚ) * rway
  let toX := tgt.1 + (toLevel : ℚ) * rway
  let cz := 3/5 * cfg.layerThickness
  let s0 : List Prim :=
    [.absMoveXYZ (froX - rway) fro.2.1 (cz + cfg.heaven),
     .feed cfg.airSpeed, .moveZ (-cfg.heaven)]
  if chk raiseAt 0 then s0 else
  let s1 := s0 ++ [.setValve 0 1, .feed cfg.groundSpeed, .moveX rway,
    .dwell cfg.stampTime]
  if chk raiseAt 1 then s1 else
  let s2 := s1 ++ [.moveZ cfg.heaven, .feed cfg.airSpeed,
    .absMoveXYZ toX tgt.2.1 (cz + cfg.heaven)]
  if chk raiseAt 2 then s2 else
  let s3 := s2 ++ [.moveZ (-cfg.heaven), .feed cfg.groundSpeed]
  if chk raiseAt 3 then s3 else
  let s4 := s3 ++ [.moveX rway, .setValve 0 0]
  if chk raiseAt 4 then s4 else
  s4 ++ [.dwell cfg.stampTime, .moveZ cfg.heaven, .feed cfg.airSpeed]

/-- Observable events of the step scheduler: executing the queue
element at (resolved) position `i`, or invoking the cleaner. -/
inductive Ev where
  | exec (i : ℤ)
  | clean
deriving DecidableEq

/-- State of the `draw_and_listen` loop.  `pending = some k` models an
external `clean()` call that raises the flag at the top of the loop
iteration at which `current_step = k` (the claims' "raised before step
k executes"); raises can also be pre-set via the initial flag. -/
structure SchedSt where
  cur : ℤ
  flag : Bool
  pending : Option ℤ
  trace : List Ev
deriving DecidableEq

/-- Deliver the pending external raise if its step index is reached. -/
def raiseStep (s : SchedSt) : SchedSt :=
  match s.pending with
  | some k => if s.cur = k then { s with flag := true, pending := none } else s
  | none => s

/-- One iteration of the `while current_step < total_steps` loop
(model.py lines 210-217): flag check (cleaning, flag clear,
`current_step -= 1`), then `dance(dance_steps[current_step])`, then
`current_step += 1`.  The executed element is resolved with Python
negative indexing. -/
def schedIter (total : ℕ) (s : SchedSt) : SchedSt :=
  let s1 := raiseStep s
  let s2 := if s1.flag then
      { s1 with flag := false, cur := s1.cur - 1, trace := s1.trace ++ [Ev.clean] }
    else s1
  { s2 with cur := s2.cur + 1, trace := s2.trace ++ [Ev.exec (pyIdx total s2.cur)] }

/-- Fuel-bounded unfolding of the scheduler loop; `total + 2` fuel
always suffices for at most one interrupt. -/
def schedRun (total : ℕ) : ℕ → SchedSt → SchedSt
  | 0, s => s
  | f + 1, s =>
    if s.cur < (total : ℤ) then schedRun total f (schedIter total s) else s

/-- Embedding of `Model.draw_and_listen` (model.py lines 204-217) for a
queue of `total` bindings, an initial flag value and at most one
pending external raise: the trace of cleaner invocations and executed
queue elements. -/
def draw_and_listen (total : ℕ) (flag0 : Bool) (pending : Option ℤ) :
    List Ev :=
  (schedRun total (total + 2) ⟨0, flag0, pending, []⟩).trace

/-- The uninterrupted execution events for `len` steps from index `lo`. -/
def execs (lo : ℤ) : ℕ → List Ev
  | 0 => []
  | n + 1 => Ev.exec lo :: execs (lo + 1) n


/-- Whether a scheduler event is an execution (not a cleaning). -/
def isExec : Ev → Bool
  | Ev.exec _ => true
  | Ev.clean => false

/-- A relation preserved by two fold steps is preserved by the folds. -/
theorem foldl_rel2 {α β γ : Type _} (f : β → α → β) (g : γ → α → γ)
    (R : β → γ → Prop) (h : ∀ b c a, R b c → R (f b a) (g c a)) :
    ∀ (l : List α) (b : β) (c : γ), R b c → R (l.foldl f b) (l.foldl g c) := by
  intro l
  induction l with
  | nil => intro b c hbc; exact hbc
  | cons a t ih => intro b c hbc; exact ih _ _ (h _ _ _ hbc)

/-- An invariant preserved by a fold step is preserved by the fold. -/
theorem foldl_inv {α β : Type _} (f : β → α → β) (P : β → Prop)
    (h : ∀ b a, P b → P (f b a)) :
    ∀ (l : List α) (b : β), P b → P (l.foldl f b) := by
  intro l
  induction l with
  | nil => intro b hb; exact hb
  | cons a t ih => intro b hb; exact ih _ (h _ _ hb)

/-- `execs` unfolds one step at the front. -/
theorem execs_succ (lo : ℤ) (n : ℕ) :
    execs lo (n + 1) = Ev.exec lo :: execs (lo + 1) n := rfl

/-- The cleaner never appears among plain execution events. -/
theorem execs_count_clean : ∀ (n : ℕ) (lo : ℤ),
    (execs lo n).count Ev.clean = 0 := by
  intro n
  induction n with
  | zero => intro lo; rfl
  | succ m ih =>
    intro lo
    simp [execs, List.count_cons, ih]

/-- Each index occurs at most once in a block of execution events. -/
theorem execs_count_exec : ∀ (n : ℕ) (lo x : ℤ),
    (execs lo n).count (Ev.exec x) =
      if lo ≤ x ∧ x < lo + n then 1 else 0 := by
  intro n
  induction n with
  | zero =>
    intro lo x
    rw [show execs lo 0 = [] from rfl, List.count_nil, if_neg (by omega)]
  | succ m ih =>
    intro lo x
    simp only [execs, List.count_cons, ih, beq_iff_eq, Ev.exec.injEq]
    split_ifs <;> omega

/-- Uninterrupted tail run of the scheduler loop: with the flag down
and no pending raise, it executes the remaining elements in order. -/
theorem schedRun_none (n : ℕ) :
    ∀ (f : ℕ) (s : SchedSt), s.flag = false → s.pending = none →
      0 ≤ s.cur → s.cur ≤ (n : ℤ) → ((n : ℤ) - s.cur).toNat ≤ f →
      schedRun n f s =
        ⟨n, false, none, s.trace ++ execs s.cur ((n : ℤ) - s.cur).toNat⟩ := by
  intro f
  induction f with
  | zero =>
    intro s hf hp h0 hn hfuel
    obtain ⟨c, flag, pending, tr⟩ := s
    simp_all only [schedRun]
    have : c = n := by omega
    subst this
    simp [execs, show ((n : ℤ) - n).toNat = 0 by omega]
  | succ f ih =>
    intro s hf hp h0 hn hfuel
    obtain ⟨c, flag, pending, tr⟩ := s
    simp_all only
    subst hf hp
    by_cases hc : c < (n : ℤ)
    · rw [schedRun, if_pos hc]
      have hiter : schedIter n ⟨c, false, none, tr⟩ =
          ⟨c + 1, false, none, tr ++ [Ev.exec c]⟩ := by
        simp [schedIter, raiseStep, pyIdx, not_lt.2 h0]
      rw [hiter]
      rw [ih ⟨c + 1, false, none, tr ++ [Ev.exec c]⟩ rfl rfl
        (by dsimp only; omega) (by dsimp only; omega) (by dsimp only; omega)]
      have hsplit : ((n : ℤ) - c).toNat = ((n : ℤ) - (c + 1)).toNat + 1 := by
        omega
      simp only [hsplit, execs_succ]
      simp
    · rw [schedRun, if_neg hc]
      have : c = n := by omega
      subst this
      simp [execs, show ((n : ℤ) - n).toNat = 0 by omega]

/-- Run of the scheduler loop with one pending raise at step `k`:
elements up to `k-1` execute, the cleaner runs, element `k-1` executes
a second time, then `k, …, n-1` execute. -/
theorem schedRun_pending (n : ℕ) (k : ℤ) (hk1 : 1 ≤ k) (hkn : k < n) :
    ∀ (f : ℕ) (s : SchedSt), s.flag = false → s.pending = some k →
      0 ≤ s.cur → s.cur ≤ k → ((n : ℤ) - s.cur).toNat + 1 ≤ f →
      schedRun n f s =
        ⟨n, false, none,
          s.trace ++ execs s.cur (k - s.cur).toNat
            ++ Ev.clean :: Ev.exec (k - 1) :: execs k ((n : ℤ) - k).toNat⟩ := by
  intro f
  induction f with
  | zero =>
    intro s _ _ _ _ hfuel
    omega
  | succ f ih =>
    intro s hf hp h0 hk hfuel
    obtain ⟨c, flag, pending, tr⟩ := s
    simp_all only
    subst hf hp
    have hc : c < (n : ℤ) := by omega
    rw [schedRun, if_pos hc]
    by_cases hck : c = k
    · subst hck
      have hiter : schedIter n ⟨c, false, some c, tr⟩ =
          ⟨c, false, none, tr ++ [Ev.clean] ++ [Ev.exec (c - 1)]⟩ := by
        simp only [schedIter, raiseStep]
        simp [pyIdx, show ¬(c - 1 < 0) by omega]
      rw [hiter]
      rw [schedRun_none n f ⟨c, false, none, tr ++ [Ev.clean] ++ [Ev.exec (c - 1)]⟩
        rfl rfl (by dsimp only; omega) (by dsimp only; omega) (by dsimp only; omega)]
      simp [show (c - c).toNat = 0 by omega, execs]
    · have hiter : schedIter n ⟨c, false, some k, tr⟩ =
          ⟨c + 1, false, some k, tr ++ [Ev.exec c]⟩ := by
        simp [schedIter, raiseStep, hck, pyIdx, not_lt.2 h0]
      rw [hiter]
      rw [ih ⟨c + 1, false, some k, tr ++ [Ev.exec c]⟩ rfl rfl
        (by dsimp only; omega) (by dsimp only; omega) (by dsimp only; omega)]
      have hsplit : (k - c).toNat = (k - (c + 1)).toNat + 1 := by omega
      simp only [hsplit, execs_succ]
      simp

/-- C1 (amended): raising the interrupt flag before step `k` of the
scheduler (`1 ≤ k < n`) makes the execution order
`0, …, k-1, clean, k-1, k, …, n-1`: the cleaning routine is invoked
exactly once, binding `k` is executed exactly once (after cleaning),
no binding is skipped — but the scheduler resumes at step index `k-1`
(`current_step -= 1`), so binding `k-1` is executed twice. -/
theorem sched_interrupt_trace (n : ℕ) (k : ℤ) (hk1 : 1 ≤ k) (hkn : k < (n : ℤ)) :
    draw_and_listen n false (some k) =
      execs 0 k.toNat ++ Ev.clean :: Ev.exec (k - 1) :: execs k ((n : ℤ) - k).toNat
    ∧ (draw_and_listen n false (some k)).count Ev.clean = 1
    ∧ (draw_and_listen n false (some k)).count (Ev.exec (k - 1)) = 2
    ∧ (draw_and_listen n false (some k)).count (Ev.exec k) = 1 := by
  have htr : draw_and_listen n false (some k) =
      execs 0 k.toNat ++ Ev.clean :: Ev.exec (k - 1) :: execs k ((n : ℤ) - k).toNat := by
    unfold draw_and_listen
    rw [schedRun_pending n k hk1 hkn (n + 2) ⟨0, false, some k, []⟩ rfl rfl
      (by dsimp only; omega) (by dsimp only; omega) (by dsimp only; omega)]
    simp [show (k - (0 : ℤ)).toNat = k.toNat by omega]
  refine ⟨htr, ?_, ?_, ?_⟩
  · rw [htr]
    simp [List.count_append, List.count_cons, execs_count_clean]
  · rw [htr]
    simp only [List.count_append, List.count_cons, execs_count_exec, beq_iff_eq,
      Ev.exec.injEq]
    rw [if_pos (by omega), if_neg (by omega)]
    simp
  · rw [htr]
    simp only [List.count_append, List.count_cons, execs_count_exec, beq_iff_eq,
      Ev.exec.injEq]
    rw [if_neg (by omega), if_pos (by omega)]
    have : ¬(Ev.clean = Ev.exec k) := by simp
    simp [this, show ¬(k - 1 = k) by omega]

/-- Witness for `sched_interrupt_trace` at `n = 3`, `k = 2`. -/
theorem sched_interrupt_trace_witness :
    (1 ≤ (2 : ℤ)) ∧ ((2 : ℤ) < ((3 : ℕ) : ℤ)) ∧
      (draw_and_listen 3 false (some 2) =
        execs 0 (2 : ℤ).toNat ++ Ev.clean :: Ev.exec (2 - 1) ::
          execs 2 (((3 : ℕ) : ℤ) - 2).toNat
      ∧ (draw_and_listen 3 false (some 2)).count Ev.clean = 1
      ∧ (draw_and_listen 3 false (some 2)).count (Ev.exec (2 - 1)) = 2
      ∧ (draw_and_listen 3 false (some 2)).count (Ev.exec 2) = 1) :=
  ⟨by decide, by decide, sched_interrupt_trace 3 2 (by decide) (by decide)⟩

/-- C1 counterexample: with 3 queued bindings and the flag raised
before step 2 executes, the observed order is
`exec 0, exec 1, clean, exec 1, exec 2` — binding 1 is executed twice,
refuting "no binding is executed twice" and "re-enters Running at the
same step index". -/
theorem sched_interrupt_reexecutes_cex :
    draw_and_listen 3 false (some 2) =
      [Ev.exec 0, Ev.exec 1, Ev.clean, Ev.exec 1, Ev.exec 2]
    ∧ (draw_and_listen 3 false (some 2)).count (Ev.exec 1) = 2 := by
  constructor
  · decide
  · decide

/-- C10: if the interrupt flag is already set when the scheduler loop
starts (before any binding has executed), the cleaner runs, the index
is decremented to `-1`, and the first binding executed is the LAST
element of the queue (`dance_steps[-1]` by Python negative indexing);
for `n ≥ 2` that element is not binding 0.  All `n` bindings then
execute in order. -/
theorem sched_initial_flag_wraps (n : ℕ) (hn : 1 ≤ n) :
    draw_and_listen n true none =
      Ev.clean :: Ev.exec ((n : ℤ) - 1) :: execs 0 n
    ∧ ((draw_and_listen n true none).filter isExec).head? =
        some (Ev.exec ((n : ℤ) - 1))
    ∧ (2 ≤ n → ((n : ℤ) - 1) ≠ 0) := by
  have htr : draw_and_listen n true none =
      Ev.clean :: Ev.exec ((n : ℤ) - 1) :: execs 0 n := by
    unfold draw_and_listen
    rw [show n + 2 = (n + 1) + 1 from rfl, schedRun, if_pos (by dsimp only; omega)]
    have hiter : schedIter n ⟨0, true, none, []⟩ =
        ⟨0, false, none, [Ev.clean, Ev.exec ((n : ℤ) - 1)]⟩ := by
      simp [schedIter, raiseStep, pyIdx, show (0 : ℤ) - 1 < 0 by omega]
      omega
    rw [hiter]
    rw [schedRun_none n (n + 1) ⟨0, false, none, [Ev.clean, Ev.exec ((n : ℤ) - 1)]⟩
      rfl rfl (by dsimp only; omega) (by dsimp only; omega) (by dsimp only; omega)]
    simp [show ((n : ℤ) - 0).toNat = n by omega]
  refine ⟨htr, ?_, by omega⟩
  rw [htr]
  simp [List.filter, isExec]

/-- Witness for `sched_initial_flag_wraps` at `n = 3`. -/
theorem sched_initial_flag_wraps_witness :
    (1 ≤ 3) ∧
      (draw_and_listen 3 true none =
        Ev.clean :: Ev.exec (((3 : ℕ) : ℤ) - 1) :: execs 0 3
      ∧ ((draw_and_listen 3 true none).filter isExec).head? =
          some (Ev.exec (((3 : ℕ) : ℤ) - 1))
      ∧ (2 ≤ 3 → (((3 : ℕ) : ℤ) - 1) ≠ 0)) :=
  ⟨by decide, sched_initial_flag_wraps 3 (by decide)⟩

/-- `getD` on a snoc, below the old length. -/
theorem getD_concat_lt {β : Type _} (l : List β) (e d : β) (t : ℕ)
    (h : t < l.length) : (l ++ [e]).getD t d = l.getD t d :=
  List.getD_append l [e] d t h

/-- `getD` on a snoc, at the old length. -/
theorem getD_concat_len {β : Type _} (l : List β) (e d : β) :
    (l ++ [e]).getD l.length d = e := by
  rw [List.getD_append_right l [e] d l.length le_rfl, Nat.sub_self]
  rfl

/-- One forward-pass source step refines one spec step: the tic agrees
and the emitted steps project to the spec bindings. -/
theorem bundleStep_projB {α : Type} (pts : ℤ → α) (N : ℕ) (m w : ℤ)
    (A : List ℤ) (zinc : ℚ) (st : PlanState α) (p : ℤ × List Binding)
    (i j : ℤ) (h1 : st.tic = p.1) (h2 : st.steps.map projB = p.2) :
    (bundleStep pts N m w A zinc st i j).tic = (specForwardStep N m w A p i j).1
    ∧ (bundleStep pts N m w A zinc st i j).steps.map projB =
        (specForwardStep N m w A p i j).2 := by
  simp only [bundleStep, specForwardStep]
  rw [h1]
  split_ifs with hg ht
  · exact ⟨h1, h2⟩
  · exact ⟨rfl, by simp [projB, h2]⟩
  · exact ⟨rfl, by simp [projB, h2]⟩

/-- One return-pass source step refines one spec step. -/
theorem bundleStepRight_projB {α : Type} (pts : ℤ → α) (N : ℕ) (m w : ℤ)
    (A : List ℤ) (zinc : ℚ) (st : PlanState α) (p : ℤ × List Binding)
    (i j : ℤ) (h1 : st.tic = p.1) (h2 : st.steps.map projB = p.2) :
    (bundleStepRight pts N m w A zinc st i j).tic = (specReturnStep N m w A p i j).1
    ∧ (bundleStepRight pts N m w A zinc st i j).steps.map projB =
        (specReturnStep N m w A p i j).2 := by
  simp only [bundleStepRight, specReturnStep]
  rw [h1]
  split_ifs with hg ht
  · exact ⟨h1, h2⟩
  · exact ⟨rfl, by simp [projB, h2]⟩
  · exact ⟨rfl, by simp [projB, h2]⟩

/-- The spec forward step preserves the alternation invariant: the tic
equals `(-1)^(emitted count)` and every emitted binding's direction is
`(-1)^(its position)`. -/
theorem specForwardStep_alt (N : ℕ) (m w : ℤ) (A : List ℤ)
    (p : ℤ × List Binding) (i j : ℤ)
    (hp : p.1 = (-1) ^ p.2.length ∧
      ∀ t, t < p.2.length → (p.2.getD t ⟨0, 0, 0⟩).dir = (-1) ^ t) :
    (specForwardStep N m w A p i j).1 =
      (-1) ^ (specForwardStep N m w A p i j).2.length ∧
    ∀ t, t < (specForwardStep N m w A p i j).2.length →
      ((specForwardStep N m w A p i j).2.getD t ⟨0, 0, 0⟩).dir = (-1) ^ t := by
  obtain ⟨hp1, hp2⟩ := hp
  simp only [specForwardStep]
  split_ifs with hg ht
  · exact ⟨hp1, hp2⟩
  · refine ⟨?_, ?_⟩
    · simp only [List.length_append, List.length_singleton]
      rw [hp1, pow_succ]
    · intro t htl
      simp only [List.length_append, List.length_singleton] at htl
      by_cases hte : t = p.2.length
      · subst hte
        rw [getD_concat_len]
        exact hp1
      · rw [getD_concat_lt _ _ _ _ (by omega)]
        exact hp2 t (by omega)
  · refine ⟨?_, ?_⟩
    · simp only [List.length_append, List.length_singleton]
      rw [hp1, pow_succ]
    · intro t htl
      simp only [List.length_append, List.length_singleton] at htl
      by_cases hte : t = p.2.length
      · subst hte
        rw [getD_concat_len]
        exact hp1
      · rw [getD_concat_lt _ _ _ _ (by omega)]
        exact hp2 t (by omega)

/-- C4: the forward weave pass of `draw_bundles` emits exactly the
bindings described by the spec: for each left-anchor rank `i ∈ [0, m)`
and local offset `j ∈ [0, (N/2)/m)` it computes
`offset = (j mod w) - w/2`, `target_index = j·m - i + N/2`,
`anchor_index = anchor_idxs[i] - offset`, skips when
`target_index < N/2`, emits `(anchor_index, target_index)` when the
tic is +1 and the swapped pair otherwise, flipping the tic after every
emission; consequently the emitted directions alternate as `(-1)^t`. -/
theorem forward_pass_spec {α : Type} (pts : ℤ → α) (N k : ℕ) (w : ℤ)
    (A : List ℤ) (zinc : ℚ) (zh0 : List ℚ) (hN : N % 2 = 0) :
    (draw_bundles pts N k w A zinc zh0).steps.map projB =
      specForwardPass N (k / 2) w A
    ∧ ∀ t, t < (specForwardPass N (k / 2) w A).length →
        ((specForwardPass N (k / 2) w A).getD t ⟨0, 0, 0⟩).dir = (-1) ^ t := by
  constructor
  · have hjm : N - N / 2 = N / 2 := by omega
    simp only [draw_bundles, specForwardPass, hjm]
    exact (foldl_rel2
      (fun (st : PlanState α) (i : ℕ) =>
        (List.range ((N / 2) / (k / 2))).foldl
          (fun st (j : ℕ) => bundleStep pts N ((k / 2 : ℕ) : ℤ) w A zinc st (i : ℤ) (j : ℤ)) st)
      (fun (p : ℤ × List Binding) (i : ℕ) =>
        (List.range ((N / 2) / (k / 2))).foldl
          (fun p (j : ℕ) => specForwardStep N ((k / 2 : ℕ) : ℤ) w A p (i : ℤ) (j : ℤ)) p)
      (fun st p => st.tic = p.1 ∧ st.steps.map projB = p.2)
      (fun st p i hst =>
        foldl_rel2
          (fun st (j : ℕ) => bundleStep pts N ((k / 2 : ℕ) : ℤ) w A zinc st (i : ℤ) (j : ℤ))
          (fun p (j : ℕ) => specForwardStep N ((k / 2 : ℕ) : ℤ) w A p (i : ℤ) (j : ℤ))
          (fun st p => st.tic = p.1 ∧ st.steps.map projB = p.2)
          (fun st p j h =>
            bundleStep_projB pts N ((k / 2 : ℕ) : ℤ) w A zinc st p (i : ℤ) (j : ℤ) h.1 h.2)
          (List.range ((N / 2) / (k / 2))) st p hst)
      (List.range (k / 2)) ⟨1, zh0, []⟩ (1, []) ⟨rfl, rfl⟩).2
  · have hmain := foldl_inv
      (fun (p : ℤ × List Binding) (i : ℕ) =>
        (List.range ((N / 2) / (k / 2))).foldl
          (fun p (j : ℕ) => specForwardStep N ((k / 2 : ℕ) : ℤ) w A p (i : ℤ) (j : ℤ)) p)
      (fun (p : ℤ × List Binding) => p.1 = (-1) ^ p.2.length ∧
        ∀ t, t < p.2.length → (p.2.getD t ⟨0, 0, 0⟩).dir = (-1) ^ t)
      (fun p i hp =>
        foldl_inv
          (fun p (j : ℕ) => specForwardStep N ((k / 2 : ℕ) : ℤ) w A p (i : ℤ) (j : ℤ))
          (fun (p : ℤ × List Binding) => p.1 = (-1) ^ p.2.length ∧
            ∀ t, t < p.2.length → (p.2.getD t ⟨0, 0, 0⟩).dir = (-1) ^ t)
          (fun p j h => specForwardStep_alt N ((k / 2 : ℕ) : ℤ) w A p (i : ℤ) (j : ℤ) h)
          (List.range ((N / 2) / (k / 2))) p hp)
      (List.range (k / 2)) (1, []) ⟨by simp, by simp⟩
    exact hmain.2

/-- Witness for `forward_pass_spec` on a concrete even-length curve. -/
theorem forward_pass_spec_witness :
    20 % 2 = 0 ∧
      ((draw_bundles (fun t => t) 20 2 2 [9, 19] (3/20)
          (List.replicate 20 (9/100))).steps.map projB =
        specForwardPass 20 (2 / 2) 2 [9, 19]
      ∧ ∀ t, t < (specForwardPass 20 (2 / 2) 2 [9, 19]).length →
          ((specForwardPass 20 (2 / 2) 2 [9, 19]).getD t ⟨0, 0, 0⟩).dir = (-1) ^ t) :=
  ⟨by decide, forward_pass_spec (fun t => t) 20 2 2 [9, 19] (3/20)
    (List.replicate 20 (9/100)) (by decide)⟩

/-- With a positive curve length, the `anchor_index < 0` disjunct of
the return pass's skip never fires: the `mod N` result is nonnegative,
so the step equals its target-only-guard variant. -/
theorem specReturnStep_eq_tgt (N : ℕ) (m w : ℤ) (A : List ℤ) (hN : 0 < N)
    (p : ℤ × List Binding) (i j : ℤ) :
    specReturnStep N m w A p i j = specReturnStepTgt N m w A p i j := by
  have h : ¬ Int.emod (A.getD (i + m).toNat 0 - (Int.emod j w - Int.fdiv w 2))
      (N : ℤ) < 0 :=
    not_lt.2 (Int.emod_nonneg _ (show (N : ℤ) ≠ 0 by omega))
  simp only [specReturnStep, specReturnStepTgt]
  split_ifs with h1 h2 <;> first | rfl | tauto

/-- Every binding emitted by the return pass has a nonnegative anchor
index (the skip guard discards the rest). -/
theorem specReturnStep_anchor_nonneg (N : ℕ) (m w : ℤ) (A : List ℤ)
    (p : ℤ × List Binding) (i j : ℤ)
    (hp : ∀ b ∈ p.2, 0 ≤ anchorOf b) :
    ∀ b ∈ (specReturnStep N m w A p i j).2, 0 ≤ anchorOf b := by
  simp only [specReturnStep]
  split_ifs with hg ht
  · exact hp
  · push_neg at hg
    intro b hb
    rcases List.mem_append.1 hb with hmem | hmem
    · exact hp b hmem
    · rcases List.mem_singleton.1 hmem with rfl
      simpa [anchorOf, ht] using hg.2
  · push_neg at hg
    intro b hb
    rcases List.mem_append.1 hb with hmem | hmem
    · exact hp b hmem
    · rcases List.mem_singleton.1 hmem with rfl
      simpa [anchorOf, ht] using hg.2

/-- C5: the return weave pass of `draw_bundles_right` emits exactly
the bindings described by the spec — `target_index = j·m - i` (no
`+N/2`), `anchor_index = (anchor_idxs[i+m] - offset) mod N`, skipping
pairs with `target_index < 0` or `anchor_index < 0` — and, thanks to
the `mod N`, the anchor index is never negative: the pass coincides
with a variant that only tests `target_index < 0`, and every emitted
binding's anchor endpoint is nonnegative. -/
theorem return_pass_spec {α : Type} (pts : ℤ → α) (N k : ℕ) (w : ℤ)
    (A : List ℤ) (zinc : ℚ) (zh0 : List ℚ) (hN : 0 < N) :
    (draw_bundles_right pts N k w A zinc zh0).steps.map projB =
      specReturnPass N (k / 2) w A
    ∧ specReturnPass N (k / 2) w A = specReturnPassTgt N (k / 2) w A
    ∧ ∀ b ∈ specReturnPass N (k / 2) w A, 0 ≤ anchorOf b := by
  refine ⟨?_, ?_, ?_⟩
  · simp only [draw_bundles_right, specReturnPass]
    exact (foldl_rel2
      (fun (st : PlanState α) (i : ℕ) =>
        (List.range ((N / 2) / (k / 2))).foldl
          (fun st (j : ℕ) => bundleStepRight pts N ((k / 2 : ℕ) : ℤ) w A zinc st (i : ℤ) (j : ℤ)) st)
      (fun (p : ℤ × List Binding) (i : ℕ) =>
        (List.range ((N / 2) / (k / 2))).foldl
          (fun p (j : ℕ) => specReturnStep N ((k / 2 : ℕ) : ℤ) w A p (i : ℤ) (j : ℤ)) p)
      (fun st p => st.tic = p.1 ∧ st.steps.map projB = p.2)
      (fun st p i hst =>
        foldl_rel2
          (fun st (j : ℕ) => bundleStepRight pts N ((k / 2 : ℕ) : ℤ) w A zinc st (i : ℤ) (j : ℤ))
          (fun p (j : ℕ) => specReturnStep N ((k / 2 : ℕ) : ℤ) w A p (i : ℤ) (j : ℤ))
          (fun st p => st.tic = p.1 ∧ st.steps.map projB = p.2)
          (fun st p j h =>
            bundleStepRight_projB pts N ((k / 2 : ℕ) : ℤ) w A zinc st p (i : ℤ) (j : ℤ) h.1 h.2)
          (List.range ((N / 2) / (k / 2))) st p hst)
      (List.range (k / 2)) ⟨1, zh0, []⟩ (1, []) ⟨rfl, rfl⟩).2
  · simp only [specReturnPass, specReturnPassTgt]
    congr 1
    exact foldl_rel2
      (fun (p : ℤ × List Binding) (i : ℕ) =>
        (List.range ((N / 2) / (k / 2))).foldl
          (fun p (j : ℕ) => specReturnStep N ((k / 2 : ℕ) : ℤ) w A p (i : ℤ) (j : ℤ)) p)
      (fun (p : ℤ × List Binding) (i : ℕ) =>
        (List.range ((N / 2) / (k / 2))).foldl
          (fun p (j : ℕ) => specReturnStepTgt N ((k / 2 : ℕ) : ℤ) w A p (i : ℤ) (j : ℤ)) p)
      (fun a b => a = b)
      (fun b c i h => by
        subst h
        exact foldl_rel2
          (fun p (j : ℕ) => specReturnStep N ((k / 2 : ℕ) : ℤ) w A p (i : ℤ) (j : ℤ))
          (fun p (j : ℕ) => specReturnStepTgt N ((k / 2 : ℕ) : ℤ) w A p (i : ℤ) (j : ℤ))
          (fun a b => a = b)
          (fun b c j h => by
            subst h
            exact specReturnStep_eq_tgt N ((k / 2 : ℕ) : ℤ) w A hN b (i : ℤ) (j : ℤ))
          (List.range ((N / 2) / (k / 2))) b b rfl)
      (List.range (k / 2)) (1, []) (1, []) rfl
  · simp only [specReturnPass]
    exact foldl_inv
      (fun (p : ℤ × List Binding) (i : ℕ) =>
        (List.range ((N / 2) / (k / 2))).foldl
          (fun p (j : ℕ) => specReturnStep N ((k / 2 : ℕ) : ℤ) w A p (i : ℤ) (j : ℤ)) p)
      (fun (p : ℤ × List Binding) => ∀ b ∈ p.2, 0 ≤ anchorOf b)
      (fun p i hp =>
        foldl_inv
          (fun p (j : ℕ) => specReturnStep N ((k / 2 : ℕ) : ℤ) w A p (i : ℤ) (j : ℤ))
          (fun (p : ℤ × List Binding) => ∀ b ∈ p.2, 0 ≤ anchorOf b)
          (fun p j h => specReturnStep_anchor_nonneg N ((k / 2 : ℕ) : ℤ) w A p (i : ℤ) (j : ℤ) h)
          (List.range ((N / 2) / (k / 2))) p hp)
      (List.range (k / 2)) (1, []) (by intro b hb; cases hb)

/-- Witness for `return_pass_spec` on a concrete curve. -/
theorem return_pass_spec_witness :
    0 < 20 ∧
      ((draw_bundles_right (fun t => t) 20 2 2 [9, 19] (3/20)
          (List.replicate 20 (9/100))).steps.map projB =
        specReturnPass 20 (2 / 2) 2 [9, 19]
      ∧ specReturnPass 20 (2 / 2) 2 [9, 19] = specReturnPassTgt 20 (2 / 2) 2 [9, 19]
      ∧ ∀ b ∈ specReturnPass 20 (2 / 2) 2 [9, 19], 0 ≤ anchorOf b) :=
  ⟨by decide, return_pass_spec (fun t => t) 20 2 2 [9, 19] (3/20)
    (List.replicate 20 (9/100)) (by decide)⟩

/-- The values returned by `n` sequential reservations at index `i`
form the arithmetic progression starting at the current height. -/
theorem reserveN_values : ∀ (n : ℕ) (zh : ℤ → ℚ) (step : ℚ) (i : ℤ),
    (reserveN zh step i n).1 =
      (List.range n).map (fun t : ℕ => zh i + (t : ℚ) * step) := by
  intro n
  induction n with
  | zero => intro zh step i; rfl
  | succ m ih =>
    intro zh step i
    simp only [reserveN, reserve, ih, List.range_succ_eq_map, List.map_cons,
      List.map_map]
    congr 1
    · simp
    · refine List.map_congr_left ?_
      intro t _
      simp only [Function.comp_apply, if_pos rfl]
      push_cast
      ring

/-- Reservations at `i` leave every other ledger entry unchanged. -/
theorem reserveN_ledger : ∀ (n : ℕ) (zh : ℤ → ℚ) (step : ℚ) (i j : ℤ),
    j ≠ i → (reserveN zh step i n).2 j = zh j := by
  intro n
  induction n with
  | zero => intro zh step i j _; rfl
  | succ m ih =>
    intro zh step i j hj
    simp only [reserveN, reserve]
    rw [ih _ _ _ _ hj]
    simp [hj]

/-- C2 (amended): the Height Ledger's `reserve` (read-then-increment,
as inlined in valve_model.py) returns, over `n` sequential calls at
the same index, the arithmetic progression of heights: strictly
increasing, consecutive values exactly one layer step apart; and
reservations at distinct indices never interact.  (In model.py's
`draw_bundles`, by contrast, both endpoint heights of one binding are
read before either increment, so a binding whose two endpoints
coincide is assigned the same height twice — see the counterexample.) -/
theorem reserve_monotone_independent (zh : ℤ → ℚ) (step : ℚ) (i : ℤ) (n : ℕ)
    (hstep : 0 < step) :
    (reserveN zh step i n).1 =
      (List.range n).map (fun t : ℕ => zh i + (t : ℚ) * step)
    ∧ (∀ t : ℕ, t + 1 < n →
        (reserveN zh step i n).1.getD (t + 1) 0 =
          (reserveN zh step i n).1.getD t 0 + step
        ∧ (reserveN zh step i n).1.getD t 0 <
            (reserveN zh step i n).1.getD (t + 1) 0)
    ∧ ∀ j : ℤ, j ≠ i → (reserveN zh step i n).2 j = zh j := by
  have hv := reserveN_values n zh step i
  refine ⟨hv, ?_, fun j hj => reserveN_ledger n zh step i j hj⟩
  intro t ht
  have hget : ∀ u : ℕ, u < n →
      (reserveN zh step i n).1.getD u 0 = zh i + (u : ℚ) * step := by
    intro u hu
    rw [hv, List.getD_eq_getElem _ _ (by simpa using hu), List.getElem_map,
      List.getElem_range]
  rw [hget t (by omega), hget (t + 1) (by omega)]
  constructor
  · push_cast
    ring
  · push_cast
    nlinarith [hstep]

/-- Witness for `reserve_monotone_independent`: three reservations at
index 5 with layer step `3/20`. -/
theorem reserve_monotone_independent_witness :
    (0 : ℚ) < 3/20 ∧
      ((reserveN (fun _ => 0) (3/20) 5 3).1 =
          (List.range 3).map (fun t : ℕ => 0 + (t : ℚ) * (3/20))
      ∧ (∀ t : ℕ, t + 1 < 3 →
          (reserveN (fun _ => 0) (3/20) 5 3).1.getD (t + 1) 0 =
            (reserveN (fun _ => 0) (3/20) 5 3).1.getD t 0 + 3/20
          ∧ (reserveN (fun _ => 0) (3/20) 5 3).1.getD t 0 <
              (reserveN (fun _ => 0) (3/20) 5 3).1.getD (t + 1) 0)
      ∧ ∀ j : ℤ, j ≠ 5 → (reserveN (fun _ => 0) (3/20) 5 3).2 j = 0) :=
  ⟨by norm_num, reserve_monotone_independent (fun _ => 0) (3/20) 5 3 (by norm_num)⟩

set_option maxHeartbeats 1000000 in
/-- C2 counterexample: with diameter 2, spacing 1/2 (curve length 4),
2 anchors, width 2 and no phase shift, the very first binding of
`draw_bundles` has both endpoints at curve index 2, and — because
model.py reads both endpoint heights before either increment — both
endpoint consumptions at index 2 are assigned the SAME height `9/100`,
refuting "no two (binding, endpoint) consumptions at the same index
are ever assigned the same height". -/
theorem ledger_same_height_cex :
    curveLen ⟨2, 1/2, 0, 0⟩ = 4
    ∧ get_anchor_idxs 4 2 2 0 = [1, 3]
    ∧ ((draw_bundles (fun t => t) 4 2 2 [1, 3] (3/20)
        (List.replicate 4 (9/100))).steps.getD 0 ⟨0, 0, 0, 0, 0, 0, 0⟩).froIdx = 2
    ∧ ((draw_bundles (fun t => t) 4 2 2 [1, 3] (3/20)
        (List.replicate 4 (9/100))).steps.getD 0 ⟨0, 0, 0, 0, 0, 0, 0⟩).toIdx = 2
    ∧ ((draw_bundles (fun t => t) 4 2 2 [1, 3] (3/20)
        (List.replicate 4 (9/100))).steps.getD 0 ⟨0, 0, 0, 0, 0, 0, 0⟩).froZ = 9/100
    ∧ ((draw_bundles (fun t => t) 4 2 2 [1, 3] (3/20)
        (List.replicate 4 (9/100))).steps.getD 0 ⟨0, 0, 0, 0, 0, 0, 0⟩).toZ = 9/100 := by
  refine ⟨?_, ?_, ?_⟩
  · norm_num [curveLen, arangeCount]
    decide
  · norm_num [get_anchor_idxs, roundHalfEven, ratTrunc, List.range_succ]
  · norm_num [draw_bundles, bundleStep, zhGet, zhAdd, pyIdx, List.range_succ,
      show Int.fdiv 2 2 = 1 from by decide, show Int.emod 0 2 = 0 from by decide,
      show Int.emod 1 2 = 1 from by decide, List.getD, List.replicate,
      show ((2 : ℤ)).toNat = 2 from rfl, show ((3 : ℤ)).toNat = 3 from rfl,
      show ((1 : ℤ)).toNat = 1 from rfl, show ((0 : ℤ)).toNat = 0 from rfl]

/-- `getD` of a mapped list below the length. -/
theorem getD_map_lt (l : List ℚ) (g : ℚ → ℚ) (i : ℕ) (h : i < l.length) :
    (l.map g).getD i 0 = g (l.getD i 0) := by
  rw [List.getD_eq_getElem _ _ (by simpa using h), List.getElem_map,
    List.getD_eq_getElem _ _ h]

/-- `getD` of a reversed list below the length. -/
theorem getD_reverse (l : List ℚ) (t : ℕ) (h : t < l.length) :
    l.reverse.getD t 0 = l.getD (l.length - 1 - t) 0 := by
  rw [List.getD_eq_getElem _ _ (by simpa using h), List.getElem_reverse,
    List.getD_eq_getElem _ _ (by omega)]

/-- Left half of a `u ++ v.reverse` concatenation. -/
theorem append_rev_getD_left (u v : List ℚ) (i : ℕ) (h : i < u.length) :
    (u ++ v.reverse).getD i 0 = u.getD i 0 :=
  List.getD_append _ _ _ _ h

/-- Mirror position in a `u ++ v.reverse` concatenation. -/
theorem append_rev_getD_right (u v : List ℚ) (i : ℕ)
    (h : i < v.length) :
    (u ++ v.reverse).getD (u.length + v.length - 1 - i) 0 = v.getD i 0 := by
  rw [show u.length + v.length - 1 - i = u.length + (v.length - 1 - i) by omega]
  rw [List.getD_append_right _ _ _ _ (by omega), Nat.add_sub_cancel_left]
  rw [getD_reverse v _ (by omega)]
  congr 1
  omega

/-- `getD` distributes over `zip` below both lengths. -/
theorem zip_getD (u v : List ℚ) (i : ℕ) (hu : i < u.length) (hv : i < v.length) :
    (u.zip v).getD i (0, 0) = (u.getD i 0, v.getD i 0) := by
  rw [List.getD_eq_getElem _ _ (by rw [List.length_zip]; omega), List.getElem_zip,
    List.getD_eq_getElem _ _ hu, List.getD_eq_getElem _ _ hv]

/-- Core mirror-symmetry fact about the sampler's list shape: in
`(u.map (-· + 2a) ++ u.reverse).zip (v ++ v.reverse)`, positions `i`
and `N-1-i` share their second coordinate and their first coordinates
sum to `2a`. -/
theorem mirror_zip (u v : List ℚ) (a : ℚ) (huv : u.length = v.length) (i : ℕ)
    (hi : i < ((u.map (fun xi => -xi + 2 * a) ++ u.reverse).zip (v ++ v.reverse)).length) :
    (((u.map (fun xi => -xi + 2 * a) ++ u.reverse).zip (v ++ v.reverse)).getD i (0, 0)).2 =
      (((u.map (fun xi => -xi + 2 * a) ++ u.reverse).zip (v ++ v.reverse)).getD
        (((u.map (fun xi => -xi + 2 * a) ++ u.reverse).zip (v ++ v.reverse)).length - 1 - i)
        (0, 0)).2
    ∧ (((u.map (fun xi => -xi + 2 * a) ++ u.reverse).zip (v ++ v.reverse)).getD i (0, 0)).1 +
        (((u.map (fun xi => -xi + 2 * a) ++ u.reverse).zip (v ++ v.reverse)).getD
          (((u.map (fun xi => -xi + 2 * a) ++ u.reverse).zip (v ++ v.reverse)).length - 1 - i)
          (0, 0)).1 = 2 * a := by
  set g : ℚ → ℚ := fun xi => -xi + 2 * a with hg
  set n := u.length with hn
  have hlen : ((u.map g ++ u.reverse).zip (v ++ v.reverse)).length = 2 * n := by
    rw [List.length_zip]
    simp [← huv]
    omega
  rw [hlen] at hi ⊢
  have key : ∀ j, j < n →
      ((u.map g ++ u.reverse).zip (v ++ v.reverse)).getD j (0, 0) =
        (g (u.getD j 0), v.getD j 0)
      ∧ ((u.map g ++ u.reverse).zip (v ++ v.reverse)).getD (2 * n - 1 - j) (0, 0) =
        (u.getD j 0, v.getD j 0) := by
    intro j hj
    constructor
    · rw [zip_getD _ _ _ (by simp [← huv]; omega) (by simp [← huv]; omega)]
      rw [append_rev_getD_left _ _ _ (by simp; omega), getD_map_lt _ _ _ hj,
        append_rev_getD_left _ _ _ (by omega)]
    · rw [zip_getD _ _ _ (by simp [← huv]; omega) (by simp [← huv]; omega)]
      rw [show 2 * n - 1 - j = (u.map g).length + u.length - 1 - j by simp; omega]
      rw [append_rev_getD_right (u.map g) u j (by omega)]
      rw [show (u.map g).length + u.length - 1 - j = v.length + v.length - 1 - j
        by simp [← huv]]
      rw [append_rev_getD_right v v j (by omega)]
  rcases lt_or_ge i n with hin | hin
  · obtain ⟨k1, k2⟩ := key i hin
    rw [k1, k2]
    refine ⟨rfl, ?_⟩
    simp [hg]
  · have hj : 2 * n - 1 - i < n := by omega
    obtain ⟨k1, k2⟩ := key (2 * n - 1 - i) hj
    rw [show 2 * n - 1 - (2 * n - 1 - i) = i by omega] at k2
    rw [k1, k2]
    refine ⟨rfl, ?_⟩
    simp [hg]

/-- C6: for every positive radius and spacing (and any square-root
function), the sampled TargetCurve has even length and its two halves
mirror across the symmetry axis: positions `i` and `N-1-i` have equal
y-coordinates and x-coordinates summing to `2 · start.x`. -/
theorem curve_mirror_symmetry (f : ℚ → ℚ) (c : SamplerCfg)
    (hr : 0 < c.diameter) (hs : 0 < c.lineSpacing) :
    Even (get_targets_y_spaced f c).length ∧
    ∀ i, i < (get_targets_y_spaced f c).length →
      ((get_targets_y_spaced f c).getD i (0, 0)).2 =
        ((get_targets_y_spaced f c).getD
          ((get_targets_y_spaced f c).length - 1 - i) (0, 0)).2
      ∧ ((get_targets_y_spaced f c).getD i (0, 0)).1 +
          ((get_targets_y_spaced f c).getD
            ((get_targets_y_spaced f c).length - 1 - i) (0, 0)).1 =
          2 * c.startX := by
  constructor
  · have hlen : (get_targets_y_spaced f c).length =
        2 * arangeCount (c.diameter / 2) c.lineSpacing := by
      simp [get_targets_y_spaced, List.length_zip]
      omega
    rw [hlen]
    exact even_two_mul _
  · intro i hi
    exact mirror_zip
      (((List.range (arangeCount (c.diameter / 2) c.lineSpacing)).map
          (fun k : ℕ => -((k : ℚ) * c.lineSpacing))).map
        (fun yi => f ((c.diameter / 2) ^ 2 - yi ^ 2) + c.startX))
      (((List.range (arangeCount (c.diameter / 2) c.lineSpacing)).map
          (fun k : ℕ => -((k : ℚ) * c.lineSpacing))).map
        (fun yi => yi + c.startY))
      c.startX (by simp) i hi

/-- Witness for `curve_mirror_symmetry` with diameter 2, spacing 1. -/
theorem curve_mirror_symmetry_witness :
    (0 : ℚ) < 2 ∧ (0 : ℚ) < 1 ∧
      (Even (get_targets_y_spaced (fun _ => 0) ⟨2, 1, 0, 0⟩).length ∧
      ∀ i, i < (get_targets_y_spaced (fun _ => 0) ⟨2, 1, 0, 0⟩).length →
        ((get_targets_y_spaced (fun _ => 0) ⟨2, 1, 0, 0⟩).getD i (0, 0)).2 =
          ((get_targets_y_spaced (fun _ => 0) ⟨2, 1, 0, 0⟩).getD
            ((get_targets_y_spaced (fun _ => 0) ⟨2, 1, 0, 0⟩).length - 1 - i) (0, 0)).2
        ∧ ((get_targets_y_spaced (fun _ => 0) ⟨2, 1, 0, 0⟩).getD i (0, 0)).1 +
            ((get_targets_y_spaced (fun _ => 0) ⟨2, 1, 0, 0⟩).getD
              ((get_targets_y_spaced (fun _ => 0) ⟨2, 1, 0, 0⟩).length - 1 - i) (0, 0)).1 =
            2 * (0 : ℚ)) :=
  ⟨by norm_num, by norm_num,
    curve_mirror_symmetry (fun _ => 0) ⟨2, 1, 0, 0⟩ (by norm_num) (by norm_num)⟩

/-- Round-half-to-even is at most its argument plus one half. -/
theorem roundHalfEven_le (q : ℚ) : ((roundHalfEven q : ℤ) : ℚ) ≤ q + 1/2 := by
  have hf := Int.floor_le q
  unfold roundHalfEven
  split_ifs with h1 h2 h3 <;> push_cast <;> linarith

/-- Round-half-to-even of a nonnegative number is nonnegative. -/
theorem roundHalfEven_nonneg (q : ℚ) (h : 0 ≤ q) : 0 ≤ roundHalfEven q := by
  have hf : 0 ≤ ⌊q⌋ := Int.floor_nonneg.2 h
  unfold roundHalfEven
  split_ifs <;> omega

/-- Truncation toward zero agrees with the floor on nonnegatives. -/
theorem ratTrunc_nonneg_eq (q : ℚ) (h : 0 ≤ q) : ratTrunc q = ⌊q⌋ := by
  unfold ratTrunc
  rw [if_neg (not_lt.2 h)]

/-- `getD` of a map over a range, below the length. -/
theorem getD_map_range (g : ℕ → ℚ) (k t : ℕ) (h : t < k) :
    ((List.range k).map g).getD t 0 = g t := by
  rw [List.getD_eq_getElem _ _ (by simpa using h), List.getElem_map,
    List.getElem_range]

/-- C7 (amended): the Anchor Selector always returns exactly
`num_anchors` indices; and for `k ≥ 2`, nonnegative width and phase
shift, all indices lie in `[0, N)` provided the shift is small
relative to the anchor spacing (`3k + 2·k·w·shift < 2N`).  A larger
phase shift pushes indices to `N` or beyond (see the counterexample). -/
theorem anchor_set_length_bounds :
    (∀ (N k : ℕ) (w shift : ℚ), (get_anchor_idxs N k w shift).length = k)
    ∧ ∀ (N k : ℕ) (w shift : ℚ), 2 ≤ k → 0 ≤ shift → 0 ≤ w →
        3 * (k : ℚ) + 2 * (k : ℚ) * w * shift < 2 * (N : ℚ) →
        ∀ x ∈ get_anchor_idxs N k w shift, 0 ≤ x ∧ x < (N : ℤ) := by
  constructor
  · intro N k w shift
    simp [get_anchor_idxs]
  · intro N k w shift hk hshift hw hbound x hx
    simp only [get_anchor_idxs, List.mem_map] at hx
    obtain ⟨q, hq, rfl⟩ := hx
    obtain ⟨t, ht, rfl⟩ := hq
    rw [List.mem_range] at ht
    have hkQ : (0 : ℚ) < (k : ℚ) := by
      exact_mod_cast Nat.lt_of_lt_of_le Nat.zero_lt_two hk
    have hg0 : ((List.range k).map
        (fun t : ℕ => (roundHalfEven ((t : ℚ) * N / k) : ℚ))).getD 0 0 = 0 := by
      rw [getD_map_range _ _ _ (by omega)]
      norm_num [roundHalfEven]
    have hg1 : ((List.range k).map
        (fun t : ℕ => (roundHalfEven ((t : ℚ) * N / k) : ℚ))).getD 1 0 =
        (roundHalfEven (((1 : ℕ) : ℚ) * N / k) : ℚ) := by
      rw [getD_map_range _ _ _ (by omega)]
    rw [hg0, hg1]
    have hd0 : (0 : ℚ) ≤ (N : ℚ) / k := by positivity
    have h1le : ((roundHalfEven ((t : ℚ) * N / k) : ℤ) : ℚ) ≤ (t : ℚ) * N / k + 1/2 :=
      roundHalfEven_le _
    have h2le : ((roundHalfEven (((1 : ℕ) : ℚ) * N / k) : ℤ) : ℚ) ≤
        ((1 : ℕ) : ℚ) * N / k + 1/2 := roundHalfEven_le _
    have h1n : 0 ≤ roundHalfEven ((t : ℚ) * N / k) :=
      roundHalfEven_nonneg _ (by positivity)
    have h2n : 0 ≤ roundHalfEven (((1 : ℕ) : ℚ) * N / k) :=
      roundHalfEven_nonneg _ (by positivity)
    have hvalnn : (0 : ℚ) ≤ ((roundHalfEven ((t : ℚ) * N / k) : ℤ) : ℚ) +
        (((roundHalfEven (((1 : ℕ) : ℚ) * N / k) : ℤ) : ℚ) - 0) / 2 +
        shift * (1/2) * w := by
      have c1 : (0 : ℚ) ≤ ((roundHalfEven ((t : ℚ) * N / k) : ℤ) : ℚ) := by
        exact_mod_cast h1n
      have c2 : (0 : ℚ) ≤ ((roundHalfEven (((1 : ℕ) : ℚ) * N / k) : ℤ) : ℚ) := by
        exact_mod_cast h2n
      have c3 : (0 : ℚ) ≤ shift * (1/2) * w := by positivity
      linarith
    have hNd : (N : ℚ) = (k : ℚ) * ((N : ℚ) / k) := by
      field_simp
    have htd : (t : ℚ) * N / k ≤ ((k : ℚ) - 1) * ((N : ℚ) / k) := by
      rw [mul_div_assoc]
      refine mul_le_mul_of_nonneg_right ?_ hd0
      have : (t : ℚ) + 1 ≤ (k : ℚ) := by exact_mod_cast ht
      linarith
    have hvalN : ((roundHalfEven ((t : ℚ) * N / k) : ℤ) : ℚ) +
        (((roundHalfEven (((1 : ℕ) : ℚ) * N / k) : ℤ) : ℚ) - 0) / 2 +
        shift * (1/2) * w < (N : ℚ) := by
      have hgap : 3/2 + w * shift < (N : ℚ) / k := by
        nlinarith
      have hone : ((1 : ℕ) : ℚ) * N / k = (N : ℚ) / k := by
        norm_num
      have htd2 : (t : ℚ) * N / k ≤ (N : ℚ) - (N : ℚ) / k := by
        have h := htd
        rw [sub_mul, one_mul, ← hNd] at h
        exact h
      linarith [h1le, h2le, hone, htd2, hgap]
    rw [ratTrunc_nonneg_eq _ hvalnn]
    constructor
    · exact Int.floor_nonneg.2 hvalnn
    · have := lt_of_le_of_lt (Int.floor_le _) hvalN
      exact_mod_cast this

/-- Witness for `anchor_set_length_bounds` at `N = 20`, `k = 2`,
`w = 2`, zero shift. -/
theorem anchor_set_length_bounds_witness :
    (get_anchor_idxs 20 2 2 0).length = 2
    ∧ (2 ≤ 2 ∧ (0 : ℚ) ≤ 0 ∧ (0 : ℚ) ≤ 2
        ∧ 3 * ((2 : ℕ) : ℚ) + 2 * ((2 : ℕ) : ℚ) * 2 * 0 < 2 * ((20 : ℕ) : ℚ))
    ∧ ∀ x ∈ get_anchor_idxs 20 2 2 0, 0 ≤ x ∧ x < (20 : ℤ) :=
  ⟨anchor_set_length_bounds.1 20 2 2 0,
    ⟨by norm_num, by norm_num, by norm_num, by norm_num⟩,
    anchor_set_length_bounds.2 20 2 2 0 (by norm_num) (by norm_num)
      (by norm_num) (by norm_num)⟩

/-- C7 counterexample: the selector happily accepts a phase shift that
pushes an anchor index past the end of the curve: with curve length 20
(diameter 2, spacing 1/10), 2 anchors, width 2 and shift 6 it returns
`[11, 21]`, and `21 ∉ [0, 20)` — refuting "every index lies in
`[0, N)`" for "every configuration accepted". -/
theorem anchor_idx_overflow_cex :
    curveLen ⟨2, 1/10, 0, 0⟩ = 20
    ∧ get_anchor_idxs 20 2 2 6 = [11, 21]
    ∧ ∃ x ∈ get_anchor_idxs 20 2 2 6, ¬(0 ≤ x ∧ x < (20 : ℤ)) := by
  have hlist : get_anchor_idxs 20 2 2 6 = [11, 21] := by
    norm_num [get_anchor_idxs, roundHalfEven, ratTrunc, List.range_succ]
  refine ⟨?_, hlist, 21, by rw [hlist]; simp, by omega⟩
  norm_num [curveLen, arangeCount]
  decide

/-- C8 (amended): the code performs no configuration validation and
defines no InvalidConfiguration error: a non-positive diameter (with
positive spacing) silently yields an EMPTY curve rather than failing,
and the Anchor Selector accepts any anchor count — odd or at least the
sample count — returning an AnchorSet of the requested length. -/
theorem no_validation_behaviour (f : ℚ → ℚ) (c : SamplerCfg) (N k : ℕ)
    (w shift : ℚ) (hd : c.diameter ≤ 0) (hs : 0 < c.lineSpacing) :
    get_targets_y_spaced f c = [] ∧ (get_anchor_idxs N k w shift).length = k := by
  constructor
  · have hcnt : arangeCount (c.diameter / 2) c.lineSpacing = 0 := by
      unfold arangeCount
      rw [if_neg (ne_of_gt hs)]
      have hrs : c.diameter / 2 / c.lineSpacing ≤ 0 :=
        div_nonpos_iff.2 (Or.inr ⟨by linarith, hs.le⟩)
      have hceil : ⌈c.diameter / 2 / c.lineSpacing⌉ ≤ 0 :=
        Int.ceil_le.2 (by exact_mod_cast hrs)
      omega
    simp [get_targets_y_spaced, hcnt]
  · simp [get_anchor_idxs]

/-- Witness for `no_validation_behaviour` at diameter `-2`. -/
theorem no_validation_behaviour_witness :
    (-2 : ℚ) ≤ 0 ∧ (0 : ℚ) < 1/10 ∧
      (get_targets_y_spaced (fun _ => 0) ⟨-2, 1/10, 0, 0⟩ = []
      ∧ (get_anchor_idxs 20 3 2 0).length = 3) :=
  ⟨by norm_num, by norm_num,
    no_validation_behaviour (fun _ => 0) ⟨-2, 1/10, 0, 0⟩ 20 3 2 0
      (by norm_num) (by norm_num)⟩

/-- C8 counterexample: configurations the claim says must fail fast
with InvalidConfiguration are accepted and produce ordinary values: a
negative diameter yields the empty curve (no error is raised anywhere
in the code), an odd anchor count (3) yields the 3-element AnchorSet
`[3, 10, 16]`, and an anchor count (8) exceeding the sample count (4)
yields an 8-element AnchorSet. -/
theorem no_validation_cex :
    get_targets_y_spaced (fun _ => 0) ⟨-2, 1/10, 0, 0⟩ = []
    ∧ (get_anchor_idxs 20 3 2 0).length = 3
    ∧ get_anchor_idxs 20 3 2 0 = [3, 10, 16]
    ∧ (get_anchor_idxs 4 8 2 0).length = 8 := by
  refine ⟨?_, by simp [get_anchor_idxs], ?_, by simp [get_anchor_idxs]⟩
  · norm_num [get_targets_y_spaced, arangeCount]
    rw [Int.ceil_le]
    norm_num
  · norm_num [get_anchor_idxs, roundHalfEven, ratTrunc, List.range_succ,
      show Int.fract ((20 : ℚ)/3) = 2/3 by unfold Int.fract; norm_num,
      show Int.fract ((40 : ℚ)/3) = 1/3 by unfold Int.fract; norm_num]

/-- C3 (amended): `dance` checks the interrupt flag at five internal
checkpoints and returns early — truncating the primitive sequence — at
the first checkpoint where the flag is observed set; only when the
flag stays clear through all five checkpoints does it emit the
complete 17-primitive sequence (through actuator OFF, final dwell,
ascent and air-feed restore).  The emitted sequence is always a prefix
of the complete one, cut at 3, 7, 10, 12, 14 or 17 primitives. -/
theorem dance_truncation (cfg : DanceCfg) (fro tgt : ℚ × ℚ × ℚ)
    (raiseAt : Option ℕ) :
    dance cfg fro tgt raiseAt = (dance cfg fro tgt none).take (cutoff raiseAt)
    ∧ (dance cfg fro tgt none).length = 17 := by
  refine ⟨?_, rfl⟩
  rcases raiseAt with _ | r
  · rfl
  · rcases r with _ | _ | _ | _ | _ | n
    · rfl
    · rfl
    · rfl
    · rfl
    · rfl
    · have h0 : chk (some (n + 5)) 0 = false := by simp [chk]
      have h1 : chk (some (n + 5)) 1 = false := by simp [chk]
      have h2 : chk (some (n + 5)) 2 = false := by simp [chk]
      have h3 : chk (some (n + 5)) 3 = false := by simp [chk]
      have h4 : chk (some (n + 5)) 4 = false := by simp [chk]
      have hcut : cutoff (some (n + 5)) = 17 := by
        show (if n + 5 = 0 then 3 else if n + 5 = 1 then 7 else if n + 5 = 2 then 10
          else if n + 5 = 3 then 12 else if n + 5 = 4 then 14 else 17) = 17
        rw [if_neg (by omega), if_neg (by omega), if_neg (by omega),
          if_neg (by omega), if_neg (by omega)]
      rw [hcut]
      simp only [dance, h0, h1, h2, h3, h4]
      rfl

/-- C3 counterexample: with the flag observed at the first checkpoint,
`dance` emits only the first 3 primitives instead of the complete
17-primitive sequence — the call IS cancelled mid-sequence, refuting
"once a call to dance begins emitting motion primitives it emits the
complete primitive sequence regardless of when the interrupt flag is
raised". -/
theorem dance_abort_cex :
    (dance ⟨1/100, 1, 1, 2, 1, 5⟩ (0, 0, 0) (2, 1, 3/100) (some 0)).length = 3
    ∧ (dance ⟨1/100, 1, 1, 2, 1, 5⟩ (0, 0, 0) (2, 1, 3/100) none).length = 17
    ∧ dance ⟨1/100, 1, 1, 2, 1, 5⟩ (0, 0, 0) (2, 1, 3/100) (some 0) ≠
        dance ⟨1/100, 1, 1, 2, 1, 5⟩ (0, 0, 0) (2, 1, 3/100) none := by
  refine ⟨rfl, rfl, ?_⟩
  intro h
  have hlen := congrArg List.length h
  rw [show (dance ⟨1/100, 1, 1, 2, 1, 5⟩ (0, 0, 0) (2, 1, 3/100) (some 0)).length = 3
      from rfl,
    show (dance ⟨1/100, 1, 1, 2, 1, 5⟩ (0, 0, 0) (2, 1, 3/100) none).length = 17
      from rfl] at hlen
  exact absurd hlen (by decide)

/-- C9 (amended): `dance` is a deterministic pure function of its
inputs, the configuration, AND the interrupt-flag values observed at
its five checkpoints: two calls that agree on all of these emit
identical primitive sequences.  (Calls differing only in the observed
flag may differ — see the counterexample.) -/
theorem dance_flag_determinism (cfg : DanceCfg) (fro tgt : ℚ × ℚ × ℚ)
    (r r' : Option ℕ) (h : ∀ c, c < 5 → chk r c = chk r' c) :
    dance cfg fro tgt r = dance cfg fro tgt r' := by
  have h0 := h 0 (by omega)
  have h1 := h 1 (by omega)
  have h2 := h 2 (by omega)
  have h3 := h 3 (by omega)
  have h4 := h 4 (by omega)
  simp only [dance, h0, h1, h2, h3, h4]

/-- Witness for `dance_flag_determinism`: two raise points past all
checkpoints are observationally equal, so the sequences coincide. -/
theorem dance_flag_determinism_witness :
    (∀ c, c < 5 → chk (some 7) c = chk (some 9) c)
    ∧ dance ⟨1/100, 1, 1, 2, 1, 5⟩ (0, 0, 0) (2, 1, 3/100) (some 7) =
        dance ⟨1/100, 1, 1, 2, 1, 5⟩ (0, 0, 0) (2, 1, 3/100) (some 9) :=
  ⟨by decide, dance_flag_determinism _ _ _ _ _ (by decide)⟩

/-- C9 counterexample: two calls with identical (source, destination,
heights) and identical configuration but different interrupt-flag
state emit different primitive sequences (12 vs 17 primitives) —
`dance` reads the mutable `needs_cleaning` flag, refuting "no
dependence on any other mutable state". -/
theorem dance_flag_dependence_cex :
    (dance ⟨3/20, 2, 1/2, 3, 1/2, 1⟩ (0, 0, 0) (1, 0, 0) (some 3)).length = 12
    ∧ (dance ⟨3/20, 2, 1/2, 3, 1/2, 1⟩ (0, 0, 0) (1, 0, 0) none).length = 17
    ∧ dance ⟨3/20, 2, 1/2, 3, 1/2, 1⟩ (0, 0, 0) (1, 0, 0) (some 3) ≠
        dance ⟨3/20, 2, 1/2, 3, 1/2, 1⟩ (0, 0, 0) (1, 0, 0) none := by
  refine ⟨rfl, rfl, ?_⟩
  intro h
  have hlen := congrArg List.length h
  rw [show (dance ⟨3/20, 2, 1/2, 3, 1/2, 1⟩ (0, 0, 0) (1, 0, 0) (some 3)).length = 12
      from rfl,
    show (dance ⟨3/20, 2, 1/2, 3, 1/2, 1⟩ (0, 0, 0) (1, 0, 0) none).length = 17
      from rfl] at hlen
  exact absurd hlen (by decide)
